import Mathlib

/-!
# examples_sdl3: the scanline compositor and the tone generator

A shallow embedding of `src/scanlines_pixelart.c` and `src/sound_keyboard.c`.

* C objects of type `uint8_t`, `uint32_t` and `int` are natural numbers or integers; every
  store into a narrower object is written out as `% 2 ^ w`.
* Function-local and file-level `static` objects become explicit state that is passed in
  and returned.
* The locked texture is a map from `uint32_t` word index to word value.
-/

namespace ScanlinesPixelart

/-! ## `rnd8` -/

/-- The four `static uint8_t a, b, c, x` of `rnd8`. -/
structure Rnd8State where
  a : Nat
  b : Nat
  c : Nat
  x : Nat
deriving DecidableEq, Repr

/-- All four accumulators hold a value of type `uint8_t`. -/
def Rnd8State.IsBytes (s : Rnd8State) : Prop :=
  s.a < 256 ∧ s.b < 256 ∧ s.c < 256 ∧ s.x < 256

instance (s : Rnd8State) : Decidable s.IsBytes := by
  unfold Rnd8State.IsBytes
  infer_instance

/-- Zero-initialised statics: the state before the first call. -/
def Rnd8State.zero : Rnd8State := ⟨0, 0, 0, 0⟩

/-- One call of `rnd8`: the returned byte and the statics afterwards.

```c
x++;
a = (a ^ c) ^ x;
b = b + a;
c = (c + ((b >> 1) | (b << 7))) ^ a;
return c;
```

The right-hand sides are evaluated on the `int`-promoted bytes (no wrap can occur, the
largest intermediate value is below `2 ^ 16`); each assignment truncates to 8 bits. -/
def rnd8 (s : Rnd8State) : Nat × Rnd8State :=
  let x := (s.x + 1) % 256
  let a := ((s.a ^^^ s.c) ^^^ x) % 256
  let b := (s.b + a) % 256
  let c := ((s.c + ((b >>> 1) ||| (b <<< 7))) ^^^ a) % 256
  (c, ⟨a, b, c, x⟩)

/-- The statics after `n` calls of `rnd8`. -/
def rnd8_run : Nat → Rnd8State → Rnd8State
  | 0, s => s
  | n + 1, s => (rnd8 (rnd8_run n s)).2

/-- The byte returned by call number `n` (counted from 1) when the statics were `s` before
call number 1. -/
def rnd8_output (n : Nat) (s : Rnd8State) : Nat :=
  (rnd8 (rnd8_run (n - 1) s)).1

/-- The first `n` bytes returned by successive calls of `rnd8`. -/
def rnd8_stream : Nat → Rnd8State → List Nat
  | 0, _ => []
  | n + 1, s => (rnd8 s).1 :: rnd8_stream n (rnd8 s).2

/-! ### The recurrence as the specification words it -/

/-- Rotation of an 8-bit value one place to the right (seven to the left), taken modulo 256
as the specification's comment gives it. -/
def spec_rot (b : Nat) : Nat :=
  ((b >>> 1) ||| (b <<< 7)) % 256

/-- The specification's recurrence, all arithmetic modulo 256:
`x += 1; a = (a xor c) xor x; b = b + a; c = (c + rot b) xor a; return c`. -/
def spec_rnd8 (s : Rnd8State) : Nat × Rnd8State :=
  let x := (s.x + 1) % 256
  let a := (s.a ^^^ s.c) ^^^ x
  let b := (s.b + a) % 256
  let c := ((s.c + spec_rot b) % 256) ^^^ a
  (c, ⟨a, b, c, x⟩)

/-- The first `n` bytes of the reference sequence of the specification's recurrence. -/
def spec_stream : Nat → Rnd8State → List Nat
  | 0, _ => []
  | n + 1, s => (spec_rnd8 s).1 :: spec_stream n (spec_rnd8 s).2

/-! ## The locked texture -/

/-- Value of `TEXTURE_WIDTH`. -/
def TEXTURE_WIDTH : Nat := 320

/-- Value of `TEXTURE_HEIGHT`. -/
def TEXTURE_HEIGHT : Nat := 360

/-- The memory behind `pixels` after `SDL_LockTexture`, read as `uint32_t` words:
word index to word value. -/
abbrev Pixels := Nat → Nat

/-- The assignment `((uint32_t *)pixels)[i] = v`; the stored value is a `uint32_t`. -/
def store (p : Pixels) (i v : Nat) : Pixels :=
  fun j => if j = i then v % 2 ^ 32 else p j

/-- The index expression `(y*pitch/4) + x`, where `pitch` is the row stride in bytes that
`SDL_LockTexture` reported. The product is taken exactly: for the strides of a locked
320 by 360 texture it stays far below the range of `int`. -/
def idx (pitch y x : Nat) : Nat :=
  (y * pitch / 4) + x

/-- The pixel in column `x` of row `y`: the word `((uint32_t *)pixels)[(y*pitch/4) + x]`. -/
def pixelAt (pitch : Nat) (p : Pixels) (x y : Nat) : Nat :=
  p (idx pitch y x)

/-- Alpha channel of an ARGB8888 word. -/
def alphaOf (v : Nat) : Nat := (v >>> 24) &&& 0xff

/-- Red channel of an ARGB8888 word. -/
def redOf (v : Nat) : Nat := (v >>> 16) &&& 0xff

/-- Green channel of an ARGB8888 word. -/
def greenOf (v : Nat) : Nat := (v >>> 8) &&& 0xff

/-- Blue channel of an ARGB8888 word. -/
def blueOf (v : Nat) : Nat := v &&& 0xff

/-- The loop `for (i = lo; i < hi; i += step) body`, with `fuel` bounding the number of
iterations. -/
def forLoop {σ : Type} (fuel i hi step : Nat) (body : σ → Nat → σ) (s : σ) : σ :=
  match fuel with
  | 0 => s
  | fuel + 1 => if i < hi then forLoop fuel (i + step) hi step body (body s i) else s

/-- The loop `for (i = lo; i < hi; i += step) body`; `hi` iterations of fuel are enough for
every positive `step`. -/
def cFor {σ : Type} (lo hi step : Nat) (body : σ → Nat → σ) (s : σ) : σ :=
  forLoop hi lo hi step body s

/-! ## `SDL_AppIterate`: fill, blend, last-row fix-up -/

/-- The statics of `rnd8` together with a ghost counter of the calls made so far. The
counter is not in the source; it only makes the number of calls observable. -/
structure Gen where
  st : Rnd8State
  calls : Nat
deriving DecidableEq, Repr

/-- One call `rnd8()` on the process-wide generator. -/
def Gen.rnd8 (g : Gen) : Nat × Gen :=
  ((ScanlinesPixelart.rnd8 g.st).1, ⟨(ScanlinesPixelart.rnd8 g.st).2, g.calls + 1⟩)

/-- The order in which the two `rnd8()` operands of one `|` expression are evaluated. C
leaves it to the compiler; `leftToRight` is the order in which they are written. -/
inductive EvalOrder where
  | leftToRight
  | rightToLeft
deriving DecidableEq, Repr

/-- The expression `0xff000000 | (rnd8() << 16) | rnd8()`: its value and the generator
afterwards. `r1` is the byte of the call made first, `r2` that of the call made second. -/
def fillValue (ord : EvalOrder) (g : Gen) : Nat × Gen :=
  let r1 := g.rnd8.1
  let g1 := g.rnd8.2
  let r2 := g1.rnd8.1
  let g2 := g1.rnd8.2
  match ord with
  | .leftToRight => (0xff000000 ||| (r1 <<< 16) ||| r2, g2)
  | .rightToLeft => (0xff000000 ||| (r2 <<< 16) ||| r1, g2)

/-- Body of the inner fill loop at `(x, y)`. -/
def fillPixel (ord : EvalOrder) (pitch y : Nat) (s : Gen × Pixels) (x : Nat) : Gen × Pixels :=
  ((fillValue ord s.1).2, store s.2 (idx pitch y x) (fillValue ord s.1).1)

/-- Lines 179 to 186: the even rows are filled with random colours.

```c
for (int y=0; y<TEXTURE_HEIGHT; y += 2)
    for (int x=0; x<TEXTURE_WIDTH; x++)
        ((uint32_t *)pixels)[(y*pitch/4) + x] = 0xff000000 | (rnd8() << 16) | rnd8();
``` -/
def fill (ord : EvalOrder) (pitch : Nat) (s : Gen × Pixels) : Gen × Pixels :=
  cFor 0 TEXTURE_HEIGHT 2
    (fun s y => cFor 0 TEXTURE_WIDTH 1 (fillPixel ord pitch y) s) s

/-- The expression assigned to `effect`. In C `<<` binds tighter than `&`, which binds
tighter than `|`. `scanline_alpha << 24` is an `int` shift whose result the `|` converts to
`uint32_t`; from `scanline_alpha = 128` on it leaves the range of `int`, and the model takes
the two's-complement bit pattern, `scanline_alpha * 2 ^ 24` modulo `2 ^ 32`.

```c
scanline_alpha << 24 |
(((col_top & 0x00ff0000) + (col_down & 0x00ff0000)) >> 1) & 0x00ff0000 |
(((col_top & 0x0000ff00) + (col_down & 0x0000ff00)) >> 1) & 0x0000ff00 |
(((col_top & 0x000000ff) + (col_down & 0x000000ff)) >> 1) & 0x000000ff
``` -/
def effect (scanline_alpha col_top col_down : Nat) : Nat :=
  ((scanline_alpha <<< 24) % 2 ^ 32) |||
  ((((col_top &&& 0x00ff0000) + (col_down &&& 0x00ff0000)) >>> 1) &&& 0x00ff0000) |||
  ((((col_top &&& 0x0000ff00) + (col_down &&& 0x0000ff00)) >>> 1) &&& 0x0000ff00) |||
  ((((col_top &&& 0x000000ff) + (col_down &&& 0x000000ff)) >>> 1) &&& 0x000000ff)

/-- Body of the inner blend loop at `(x, y)`. -/
def blendPixel (scanline_alpha pitch y : Nat) (p : Pixels) (x : Nat) : Pixels :=
  let col_top := p (idx pitch (y - 1) x)
  let col_down := p (idx pitch (y + 1) x)
  store p (idx pitch y x) (effect scanline_alpha col_top col_down)

/-- Lines 188 to 199: the odd rows `1, 3, ..` below `TEXTURE_HEIGHT - 2` are blended from
their neighbours. -/
def blend (scanline_alpha pitch : Nat) (p : Pixels) : Pixels :=
  cFor 1 (TEXTURE_HEIGHT - 2) 2
    (fun p y => cFor 0 TEXTURE_WIDTH 1 (blendPixel scanline_alpha pitch y) p) p

/-- Body of the last-row loop at column `x`; `scanline_alpha << 24` as in `effect`. -/
def lastRowPixel (scanline_alpha pitch : Nat) (p : Pixels) (x : Nat) : Pixels :=
  store p (idx pitch (TEXTURE_HEIGHT - 1) x)
    ((p (idx pitch (TEXTURE_HEIGHT - 2) x) &&& 0x00ffffff) |||
      ((scanline_alpha <<< 24) % 2 ^ 32))

/-- Lines 200 to 203: the last row copies the colour of the row above it. -/
def lastRow (scanline_alpha pitch : Nat) (p : Pixels) : Pixels :=
  cFor 0 TEXTURE_WIDTH 1 (lastRowPixel scanline_alpha pitch) p

/-- The compositing part of `SDL_AppIterate` (between `SDL_LockTexture` and
`SDL_UnlockTexture`): fill, then blend, then the last row. -/
def SDL_AppIterate (ord : EvalOrder) (scanline_alpha pitch : Nat) (s : Gen × Pixels) :
    Gen × Pixels :=
  let f := fill ord pitch s
  (f.1, lastRow scanline_alpha pitch (blend scanline_alpha pitch f.2))

/-- The blend rule at pixel `(x, y)` of a buffer: each colour channel is the truncating mean
of the same channel of the pixels above and below, the alpha channel is `scanline_alpha`. -/
def BlendRule (scanline_alpha pitch : Nat) (out : Pixels) (x y : Nat) : Prop :=
  redOf (pixelAt pitch out x y) =
      (redOf (pixelAt pitch out x (y - 1)) + redOf (pixelAt pitch out x (y + 1))) / 2 ∧
  greenOf (pixelAt pitch out x y) =
      (greenOf (pixelAt pitch out x (y - 1)) + greenOf (pixelAt pitch out x (y + 1))) / 2 ∧
  blueOf (pixelAt pitch out x y) =
      (blueOf (pixelAt pitch out x (y - 1)) + blueOf (pixelAt pitch out x (y + 1))) / 2 ∧
  alphaOf (pixelAt pitch out x y) = scanline_alpha

/-- The last-row rule at column `x` of a buffer: the low 24 bits, and so each colour
channel, of the pixel in row `TEXTURE_HEIGHT - 1` are those of the pixel in row
`TEXTURE_HEIGHT - 2`, and its alpha channel is `scanline_alpha`. -/
def LastRowRule (scanline_alpha pitch : Nat) (out : Pixels) (x : Nat) : Prop :=
  pixelAt pitch out x (TEXTURE_HEIGHT - 1) % 2 ^ 24 =
      pixelAt pitch out x (TEXTURE_HEIGHT - 2) % 2 ^ 24 ∧
  redOf (pixelAt pitch out x (TEXTURE_HEIGHT - 1)) =
      redOf (pixelAt pitch out x (TEXTURE_HEIGHT - 2)) ∧
  greenOf (pixelAt pitch out x (TEXTURE_HEIGHT - 1)) =
      greenOf (pixelAt pitch out x (TEXTURE_HEIGHT - 2)) ∧
  blueOf (pixelAt pitch out x (TEXTURE_HEIGHT - 1)) =
      blueOf (pixelAt pitch out x (TEXTURE_HEIGHT - 2)) ∧
  alphaOf (pixelAt pitch out x (TEXTURE_HEIGHT - 1)) = scanline_alpha

/-! ## `SDL_AppEvent` -/

/-- The enumeration `SDL_ScaleMode` of SDL3. -/
inductive SDL_ScaleMode where
  | invalid
  | nearest
  | pixelart
  | linear
deriving DecidableEq, Repr

/-- Name of the enumerator in the SDL3 header. -/
def SDL_ScaleMode.name : SDL_ScaleMode → String
  | .invalid => "SDL_SCALEMODE_INVALID"
  | .nearest => "SDL_SCALEMODE_NEAREST"
  | .pixelart => "SDL_SCALEMODE_PIXELART"
  | .linear => "SDL_SCALEMODE_LINEAR"

/-- The array `modes[]`. -/
def modes : List String :=
  ["SDL_SCALEMODE_NEAREST", "SDL_SCALEMODE_PIXELART", "SDL_SCALEMODE_LINEAR"]

/-- The scancodes the handler distinguishes; `other` is any other scancode. -/
inductive Scancode where
  | up
  | down
  | f
  | other
deriving DecidableEq, Repr

/-- The event types the handler distinguishes; `other` is any other event type. -/
inductive Event where
  | mouseButtonDown
  | keyDown (scancode : Scancode)
  | quit
  | other
deriving DecidableEq, Repr

/-- The values of `SDL_AppResult`. -/
inductive SDL_AppResult where
  | appContinue
  | appSuccess
  | appFailure
deriving DecidableEq, Repr

/-- The file-level statics the event handler touches, the scale mode held by the texture
(read by `SDL_GetTextureScaleMode`, written by `SDL_SetTextureScaleMode`) and the
fullscreen state last handed to `SDL_SetWindowFullscreen`. -/
structure AppState where
  scanline_alpha : Nat
  current_scale_mode : Int
  fullscreen : Bool
  textureScaleMode : SDL_ScaleMode
  windowFullscreen : Bool
deriving DecidableEq, Repr

/-- The state `SDL_AppInit` leaves on success: the initialisers of the statics, and the
texture set to `SDL_SCALEMODE_PIXELART` (line 124). -/
def AppState.init : AppState :=
  { scanline_alpha := 0xb0
    current_scale_mode := 1
    fullscreen := false
    textureScaleMode := .pixelart
    windowFullscreen := false }

/-- The block `if (event->type == SDL_EVENT_MOUSE_BUTTON_DOWN)`. -/
def onMouseButtonDown (st : AppState) : AppState :=
  let sm := st.textureScaleMode
  if sm = .linear then
    { st with textureScaleMode := .nearest, current_scale_mode := 0 }
  else if sm = .nearest then
    { st with textureScaleMode := .pixelart, current_scale_mode := 1 }
  else if sm = .pixelart then
    { st with textureScaleMode := .linear, current_scale_mode := 2 }
  else st

/-- The `switch (event->key.scancode)`. The compound assignments compute in `int` and
convert the result back to `uint8_t`. -/
def onKeyDown (st : AppState) (sc : Scancode) : AppState :=
  match sc with
  | .up => { st with scanline_alpha := (((st.scanline_alpha : Int) + 2) % 256).toNat }
  | .down => { st with scanline_alpha := (((st.scanline_alpha : Int) - 2) % 256).toNat }
  | .f => { st with fullscreen := !st.fullscreen, windowFullscreen := !st.fullscreen }
  | .other => st

/-- The handler `SDL_AppEvent` of the pixel-art demo. -/
def SDL_AppEvent (st : AppState) (ev : Event) : SDL_AppResult × AppState :=
  let st1 := if ev = .mouseButtonDown then onMouseButtonDown st else st
  let st2 :=
    match ev with
    | .keyDown sc => onKeyDown st1 sc
    | _ => st1
  if ev = .quit then (.appSuccess, st2) else (.appContinue, st2)

/-- The state after a sequence of events has been handled from the initial state. -/
def runEvents (evs : List Event) : AppState :=
  evs.foldl (fun st ev => (SDL_AppEvent st ev).2) AppState.init

/-! ## `SDL_AppInit`: the window size -/

end ScanlinesPixelart

namespace SoundKeyboard

/-! ## The tone generator of `sound_keyboard.c` -/

/-- The constant `minimum_audio = (48000 * sizeof (float)) / 2`, with `sizeof (float) = 4`. -/
def minimum_audio : Int := (48000 * 4) / 2

/-- Number of elements of `samples`, the value of `SDL_arraysize(samples)`. -/
def samplesLen : Nat := 1024

/-- One round of the generation loop. The state is the list of the integer products
`current_sine_sample * freq` computed so far, one for each sample written, and
`current_sine_sample`. The floating-point sample made from a product is not modelled. -/
def toneStep (s : List Int × Int) (_i : Nat) : List Int × Int :=
  (s.1 ++ [s.2 * 440], s.2 + 1)

/-- The loop `for (i = 0; i < SDL_arraysize(samples); i++)`. -/
def toneLoop (current_sine_sample : Int) : List Int × Int :=
  ScanlinesPixelart.cFor 0 samplesLen 1 toneStep ([], current_sine_sample)

/-- The audio part of `SDL_AppIterate`: `queued` is the value `SDL_GetAudioStreamQueued`
returned. Gives the products of the samples generated by this call and the new
`current_sine_sample`. -/
def SDL_AppIterate (queued : Int) (current_sine_sample : Int) : List Int × Int :=
  if queued < minimum_audio then
    ((toneLoop current_sine_sample).1, (toneLoop current_sine_sample).2.tmod 48000)
  else
    ([], current_sine_sample)

/-- The value of `current_sine_sample` after a sequence of calls, starting from its
initialiser 0; the list gives the queued byte count seen by each call. -/
def runIterate (queued : List Int) : Int :=
  queued.foldl (fun n q => (SDL_AppIterate q n).2) 0

end SoundKeyboard

namespace ScanlinesPixelart

/-! ## Bit-level helper lemmas -/

theorem xor_mod_256 (u v : Nat) : (u ^^^ v) % 256 = (u % 256) ^^^ (v % 256) := by
  apply Nat.eq_of_testBit_eq
  intro i
  have h : (256 : Nat) = 2 ^ 8 := by norm_num
  rw [h]
  simp only [Nat.testBit_mod_two_pow, Nat.testBit_xor]
  by_cases hi : i < 8 <;> simp [hi]

theorem xor_lt_256 {u v : Nat} (hu : u < 256) (hv : v < 256) : u ^^^ v < 256 := by
  have h : (256 : Nat) = 2 ^ 8 := by norm_num
  rw [h] at hu hv ⊢
  exact Nat.xor_lt_two_pow hu hv

/-- The promoted expression `(c + ((b >> 1) | (b << 7))) ^ a`, truncated on assignment,
is the 8-bit value the recurrence asks for. -/
theorem rnd8_c_eq (a b c : Nat) (ha : a < 256) :
    ((c + ((b >>> 1) ||| (b <<< 7))) ^^^ a) % 256 = ((c + spec_rot b) % 256) ^^^ a := by
  rw [xor_mod_256, Nat.mod_eq_of_lt ha]
  unfold spec_rot
  congr 1
  omega

theorem rnd8_eq_spec (s : Rnd8State) (h : s.IsBytes) : rnd8 s = spec_rnd8 s := by
  obtain ⟨ha, _, hc, _⟩ := h
  have hx : (s.x + 1) % 256 < 256 := Nat.mod_lt _ (by norm_num)
  have ha1 : (s.a ^^^ s.c) ^^^ ((s.x + 1) % 256) < 256 := xor_lt_256 (xor_lt_256 ha hc) hx
  simp only [rnd8, spec_rnd8, Nat.mod_eq_of_lt ha1, rnd8_c_eq _ _ _ ha1]

theorem rnd8_isBytes (s : Rnd8State) : (rnd8 s).2.IsBytes := by
  simp only [rnd8, Rnd8State.IsBytes]
  refine ⟨?_, ?_, ?_, ?_⟩ <;> exact Nat.mod_lt _ (by norm_num)

theorem rnd8_stream_eq_spec (n : Nat) (s : Rnd8State) (h : s.IsBytes) :
    rnd8_stream n s = spec_stream n s := by
  induction n generalizing s with
  | zero => rfl
  | succ n ih =>
    simp only [rnd8_stream, spec_stream]
    rw [← rnd8_eq_spec s h, ih _ (rnd8_isBytes s)]

theorem and_mask_shift (v k : Nat) :
    v &&& ((2 ^ 8 - 1) <<< k) = ((v >>> k) % 2 ^ 8) <<< k := by
  apply Nat.eq_of_testBit_eq
  intro i
  simp only [Nat.testBit_and, Nat.testBit_shiftLeft, Nat.testBit_mod_two_pow,
    Nat.testBit_shiftRight, Nat.testBit_two_pow_sub_one]
  by_cases h : k ≤ i
  · have e : k + (i - k) = i := by omega
    simp [h, e, Bool.and_comm]
  · simp [h]

theorem and_ff (v : Nat) : v &&& 0xff = v % 256 := by
  have := Nat.and_pow_two_sub_one_eq_mod v 8
  simpa using this

theorem and_ff00 (v : Nat) : v &&& 0xff00 = (v / 256 % 256) * 256 := by
  have := and_mask_shift v 8
  simpa [Nat.shiftLeft_eq, Nat.shiftRight_eq_div_pow] using this

theorem and_ff0000 (v : Nat) : v &&& 0xff0000 = (v / 65536 % 256) * 65536 := by
  have := and_mask_shift v 16
  simpa [Nat.shiftLeft_eq, Nat.shiftRight_eq_div_pow] using this

theorem and_ffffff (v : Nat) : v &&& 0xffffff = v % 16777216 := by
  have := Nat.and_pow_two_sub_one_eq_mod v 24
  simpa using this

theorem or_eq_add (a b i : Nat) (ha : a % 2 ^ i = 0) (hb : b < 2 ^ i) : a ||| b = a + b := by
  have h := Nat.mul_add_lt_is_or hb (a / 2 ^ i)
  have e : 2 ^ i * (a / 2 ^ i) = a := by
    have := Nat.div_add_mod a (2 ^ i)
    omega
  rw [e] at h
  exact h.symm

theorem redOf_eq (v : Nat) : redOf v = v / 65536 % 256 := by
  unfold redOf
  rw [and_ff, Nat.shiftRight_eq_div_pow]

theorem greenOf_eq (v : Nat) : greenOf v = v / 256 % 256 := by
  unfold greenOf
  rw [and_ff, Nat.shiftRight_eq_div_pow]

theorem blueOf_eq (v : Nat) : blueOf v = v % 256 := by
  unfold blueOf
  rw [and_ff]

theorem alphaOf_eq (v : Nat) : alphaOf v = v / 16777216 % 256 := by
  unfold alphaOf
  rw [and_ff, Nat.shiftRight_eq_div_pow]

/-- A word put together from four bytes: its size and its channels. -/
theorem channels_of_bytes (a r g b : Nat) (ha : a < 256) (hr : r < 256) (hg : g < 256)
    (hb : b < 256) :
    a * 16777216 + r * 65536 + g * 256 + b < 2 ^ 32 ∧
    alphaOf (a * 16777216 + r * 65536 + g * 256 + b) = a ∧
    redOf (a * 16777216 + r * 65536 + g * 256 + b) = r ∧
    greenOf (a * 16777216 + r * 65536 + g * 256 + b) = g ∧
    blueOf (a * 16777216 + r * 65536 + g * 256 + b) = b := by
  rw [alphaOf_eq, redOf_eq, greenOf_eq, blueOf_eq]
  refine ⟨?_, ?_, ?_, ?_, ?_⟩ <;> norm_num <;> omega

theorem rnd8_lt (s : Rnd8State) : (rnd8 s).1 < 256 :=
  Nat.mod_lt _ (by norm_num)

/-- The fill expression as a sum of its channels. -/
theorem fill_word_eq (r1 r2 : Nat) (h1 : r1 < 256) (h2 : r2 < 256) :
    0xff000000 ||| (r1 <<< 16) ||| r2 = 255 * 16777216 + r1 * 65536 + 0 * 256 + r2 := by
  rw [Nat.shiftLeft_eq,
    or_eq_add 0xff000000 (r1 * 2 ^ 16) 24 (by norm_num) (by norm_num; omega),
    or_eq_add (0xff000000 + r1 * 2 ^ 16) r2 16 (by norm_num)
      (by norm_num; omega)]
  norm_num

/-- The blend expression as a sum of its channels. -/
theorem effect_eq (sa t d : Nat) (hsa : sa < 256) :
    effect sa t d =
      sa * 16777216 + (redOf t + redOf d) / 2 * 65536 + (greenOf t + greenOf d) / 2 * 256 +
        (blueOf t + blueOf d) / 2 := by
  have hR : (((t &&& 0x00ff0000) + (d &&& 0x00ff0000)) >>> 1) &&& 0x00ff0000 =
      (redOf t + redOf d) / 2 * 65536 := by
    rw [and_ff0000 t, and_ff0000 d, and_ff0000, Nat.shiftRight_eq_div_pow, redOf_eq, redOf_eq]
    have := Nat.mod_lt (t / 65536) (show 0 < 256 by norm_num)
    have := Nat.mod_lt (d / 65536) (show 0 < 256 by norm_num)
    generalize t / 65536 % 256 = a at *
    generalize d / 65536 % 256 = b at *
    norm_num
    omega
  have hG : (((t &&& 0x0000ff00) + (d &&& 0x0000ff00)) >>> 1) &&& 0x0000ff00 =
      (greenOf t + greenOf d) / 2 * 256 := by
    rw [and_ff00 t, and_ff00 d, and_ff00, Nat.shiftRight_eq_div_pow, greenOf_eq, greenOf_eq]
    have := Nat.mod_lt (t / 256) (show 0 < 256 by norm_num)
    have := Nat.mod_lt (d / 256) (show 0 < 256 by norm_num)
    generalize t / 256 % 256 = a at *
    generalize d / 256 % 256 = b at *
    norm_num
    omega
  have hB : (((t &&& 0x000000ff) + (d &&& 0x000000ff)) >>> 1) &&& 0x000000ff =
      (blueOf t + blueOf d) / 2 := by
    rw [and_ff t, and_ff d, and_ff, Nat.shiftRight_eq_div_pow, blueOf_eq, blueOf_eq]
    norm_num
    omega
  have hA : (sa <<< 24) % 2 ^ 32 = sa * 16777216 := by
    rw [Nat.shiftLeft_eq]
    norm_num
    omega
  have hr : redOf t < 256 := by rw [redOf_eq]; exact Nat.mod_lt _ (by norm_num)
  have hr' : redOf d < 256 := by rw [redOf_eq]; exact Nat.mod_lt _ (by norm_num)
  have hg : greenOf t < 256 := by rw [greenOf_eq]; exact Nat.mod_lt _ (by norm_num)
  have hg' : greenOf d < 256 := by rw [greenOf_eq]; exact Nat.mod_lt _ (by norm_num)
  have hb : blueOf t < 256 := by rw [blueOf_eq]; exact Nat.mod_lt _ (by norm_num)
  have hb' : blueOf d < 256 := by rw [blueOf_eq]; exact Nat.mod_lt _ (by norm_num)
  unfold effect
  rw [hR, hG, hB, hA]
  have hR' : (redOf t + redOf d) / 2 < 256 := by omega
  have hG' : (greenOf t + greenOf d) / 2 < 256 := by omega
  have hB' : (blueOf t + blueOf d) / 2 < 256 := by omega
  generalize (redOf t + redOf d) / 2 = R at *
  generalize (greenOf t + greenOf d) / 2 = G at *
  generalize (blueOf t + blueOf d) / 2 = B at *
  rw [or_eq_add (sa * 16777216) (R * 65536) 24 (by norm_num) (by norm_num; omega),
    or_eq_add (sa * 16777216 + R * 65536) (G * 256) 16 (by norm_num; omega)
      (by norm_num; omega),
    or_eq_add (sa * 16777216 + R * 65536 + G * 256) B 8 (by norm_num; omega)
      (by norm_num; omega)]

/-- The last-row expression: colour of the word above, alpha from `scanline_alpha`. -/
theorem lastRow_word_eq (sa v : Nat) (hsa : sa < 256) :
    (v &&& 0x00ffffff) ||| ((sa <<< 24) % 2 ^ 32) = sa * 16777216 + v % 16777216 := by
  have hA : (sa <<< 24) % 2 ^ 32 = sa * 16777216 := by
    rw [Nat.shiftLeft_eq]
    norm_num
    omega
  have hv := Nat.mod_lt v (show 0 < 16777216 by norm_num)
  rw [and_ffffff, hA, Nat.or_comm,
    or_eq_add (sa * 16777216) (v % 16777216) 24 (by norm_num) (by norm_num; omega)]

/-! ## Loops as folds -/

theorem forLoop_eq_foldl {σ : Type} (hi step : Nat) (body : σ → Nat → σ) :
    ∀ (n fuel i : Nat) (s : σ), n ≤ fuel → hi ≤ i + n * step →
      (∀ k, k < n → i + k * step < hi) →
      forLoop fuel i hi step body s =
        ((List.range n).map (fun k => i + k * step)).foldl body s := by
  intro n
  induction n with
  | zero =>
    intro fuel i s _ hhi _
    cases fuel with
    | zero => simp [forLoop]
    | succ f =>
      have : ¬ i < hi := by omega
      simp [forLoop, this]
  | succ n ih =>
    intro fuel i s hf hhi hlt
    cases fuel with
    | zero => omega
    | succ f =>
      have h0 : i < hi := by simpa using hlt 0 (Nat.succ_pos n)
      have e := ih f (i + step) (body s i) (by omega)
        (by rw [Nat.succ_mul] at hhi; omega)
        (fun k hk => by
          have := hlt (k + 1) (by omega)
          rw [Nat.succ_mul] at this
          omega)
      rw [forLoop, if_pos h0, e, List.range_succ_eq_map, List.map_cons, List.foldl_cons,
        List.map_map]
      simp only [Nat.zero_mul, Nat.add_zero]
      congr 1
      apply List.map_congr_left
      intro k _
      simp only [Function.comp, Nat.succ_eq_add_one, Nat.succ_mul]
      omega

theorem map_range_congr (n : Nat) (f g : Nat → Nat) (h : ∀ k, f k = g k) :
    (List.range n).map f = (List.range n).map g :=
  List.map_congr_left (fun k _ => h k)

theorem cFor_count {σ : Type} (m : Nat) (body : σ → Nat → σ) (s : σ) :
    cFor 0 m 1 body s = (List.range m).foldl body s := by
  unfold cFor
  rw [forLoop_eq_foldl m 1 body m m 0 s (le_refl _) (by omega) (by omega),
    map_range_congr m (fun k => 0 + k * 1) id (fun k => by simp), List.map_id]

theorem cFor_cols {σ : Type} (body : σ → Nat → σ) (s : σ) :
    cFor 0 TEXTURE_WIDTH 1 body s = (List.range 320).foldl body s :=
  cFor_count 320 body s

theorem cFor_evenRows {σ : Type} (body : σ → Nat → σ) (s : σ) :
    cFor 0 TEXTURE_HEIGHT 2 body s =
      ((List.range 180).map (fun r => 2 * r)).foldl body s := by
  unfold cFor TEXTURE_HEIGHT
  rw [forLoop_eq_foldl 360 2 body 180 360 0 s (by omega) (by omega) (by omega),
    map_range_congr 180 (fun k => 0 + k * 2) (fun r => 2 * r) (fun k => by show _ = _; simp only []; omega)]

theorem cFor_oddRows {σ : Type} (body : σ → Nat → σ) (s : σ) :
    cFor 1 (TEXTURE_HEIGHT - 2) 2 body s =
      ((List.range 179).map (fun r => 2 * r + 1)).foldl body s := by
  unfold cFor TEXTURE_HEIGHT
  rw [forLoop_eq_foldl 358 2 body 179 358 1 s (by omega) (by omega) (by omega),
    map_range_congr 179 (fun k => 1 + k * 2) (fun r => 2 * r + 1) (fun k => by show _ = _; simp only []; omega)]

/-- Two nested counting loops are one loop over the row-major position `i`, which is in
row `i / m` and column `i % m`. -/
theorem foldl_foldl_range {σ : Type} (f : σ → Nat → Nat → σ) (g : Nat → Nat) (m : Nat)
    (hm : 0 < m) :
    ∀ (n : Nat) (s : σ),
      ((List.range n).map g).foldl (fun s y => (List.range m).foldl (fun s x => f s y x) s) s =
        (List.range (n * m)).foldl (fun s i => f s (g (i / m)) (i % m)) s := by
  intro n
  induction n with
  | zero => intro s; simp
  | succ n ih =>
    intro s
    rw [List.range_succ, List.map_append, List.foldl_append, ih, Nat.succ_mul,
      List.range_add, List.foldl_append]
    simp only [List.map_cons, List.map_nil, List.foldl_cons, List.foldl_nil, List.foldl_map]
    apply List.foldl_ext
    intro a x hx
    have hx' : x < m := List.mem_range.mp hx
    have e1 : (n * m + x) / m = n := by
      rw [Nat.add_comm, Nat.mul_comm, Nat.add_mul_div_left x n hm, Nat.div_eq_of_lt hx',
        Nat.zero_add]
    have e2 : (n * m + x) % m = x := by
      rw [Nat.add_comm, Nat.mul_comm, Nat.add_mul_mod_self_left, Nat.mod_eq_of_lt hx']
    rw [e1, e2]

/-! ## Sequences of stores -/

theorem store_same (p : Pixels) (i v : Nat) : store p i v i = v % 2 ^ 32 := by
  simp [store]

theorem store_other (p : Pixels) (i v j : Nat) (h : j ≠ i) : store p i v j = p j := by
  simp [store, h]

/-- A loop of stores at pairwise distinct places, whose stored values read the buffer only
at places the loop never writes: unwritten places keep their value, and every written
place holds the value computed from the buffer before the loop. -/
theorem foldl_store_spec {K : Type} (loc : K → Nat) (val : Pixels → K → Nat) :
    ∀ (l : List K) (p : Pixels), (l.map loc).Nodup →
      (∀ k, k ∈ l → ∀ q : Pixels, (∀ j, j ∉ l.map loc → q j = p j) → val q k = val p k) →
      (∀ j, j ∉ l.map loc →
        l.foldl (fun q k => store q (loc k) (val q k)) p j = p j) ∧
      (∀ k, k ∈ l →
        l.foldl (fun q k => store q (loc k) (val q k)) p (loc k) = val p k % 2 ^ 32) := by
  intro l
  induction l with
  | nil =>
    intro p _ _
    exact ⟨fun j _ => rfl, fun k hk => absurd hk (List.not_mem_nil k)⟩
  | cons k t ih =>
    intro p hnd hval
    rw [List.map_cons, List.nodup_cons] at hnd
    obtain ⟨hk, hnd⟩ := hnd
    have hp1 : ∀ j, j ∉ (k :: t).map loc → store p (loc k) (val p k) j = p j := by
      intro j hj
      rw [List.map_cons, List.mem_cons, not_or] at hj
      exact store_other _ _ _ _ hj.1
    have hval1 : ∀ k', k' ∈ t → val (store p (loc k) (val p k)) k' = val p k' :=
      fun k' hk' => hval k' (List.mem_cons_of_mem _ hk') _ hp1
    obtain ⟨ih1, ih2⟩ := ih (store p (loc k) (val p k)) hnd (by
      intro k' hk' q hq
      rw [hval1 k' hk']
      apply hval k' (List.mem_cons_of_mem _ hk')
      intro j hj
      have hj' := hj
      rw [List.map_cons, List.mem_cons, not_or] at hj'
      rw [hq j hj'.2, hp1 j hj])
    constructor
    · intro j hj
      have hj' := hj
      rw [List.map_cons, List.mem_cons, not_or] at hj'
      rw [List.foldl_cons, ih1 j hj'.2, hp1 j hj]
    · intro k' hk'
      rw [List.foldl_cons]
      rcases List.mem_cons.mp hk' with rfl | hk'
      · rw [ih1 _ hk, store_same]
      · rw [ih2 k' hk', hval1 k' hk']

/-- A loop of stores at pairwise distinct places whose values are drawn from the generator:
the generator advances once per round, unwritten places keep their value, and the place
of round `i` holds the value drawn in round `i`. -/
theorem foldl_gen_store_spec {K : Type} (loc : K → Nat) (pv : Gen → Nat × Gen) :
    ∀ (l : List K) (g : Gen) (p : Pixels), (l.map loc).Nodup →
      ∀ out : Gen × Pixels,
      l.foldl (fun s k => ((pv s.1).2, store s.2 (loc k) (pv s.1).1)) (g, p) = out →
      out.1 = (fun g => (pv g).2)^[l.length] g ∧
      (∀ j, j ∉ l.map loc → out.2 j = p j) ∧
      (∀ (i : Nat) (k : K), l[i]? = some k →
        out.2 (loc k) = (pv ((fun g => (pv g).2)^[i] g)).1 % 2 ^ 32) := by
  intro l
  induction l with
  | nil =>
    intro g p _ out hout
    subst hout
    refine ⟨rfl, fun j _ => rfl, fun i k h => ?_⟩
    simp at h
  | cons k t ih =>
    intro g p hnd out hout
    rw [List.map_cons, List.nodup_cons] at hnd
    obtain ⟨hk, hnd⟩ := hnd
    rw [List.foldl_cons] at hout
    obtain ⟨ih1, ih2, ih3⟩ := ih (pv g).2 (store p (loc k) (pv g).1) hnd out hout
    refine ⟨?_, ?_, ?_⟩
    · rw [ih1]
      rfl
    · intro j hj
      rw [List.map_cons, List.mem_cons, not_or] at hj
      rw [ih2 j hj.2, store_other _ _ _ _ hj.1]
    · intro i k' h
      cases i with
      | zero =>
        rw [List.getElem?_cons_zero, Option.some.injEq] at h
        subst h
        exact (ih2 _ hk).trans (store_same _ _ _)
      | succ i =>
        rw [List.getElem?_cons_succ] at h
        exact ih3 i k' h

/-! ## Rows do not overlap -/

theorem idx_row_lt (pitch y y' x : Nat) (hp : 320 ≤ pitch / 4) (hx : x < 320)
    (hy : y < y') : idx pitch y x < idx pitch y' 0 := by
  unfold idx
  have h1 : (y + 1) * pitch ≤ y' * pitch := Nat.mul_le_mul_right pitch hy
  rw [Nat.succ_mul] at h1
  omega

theorem idx_inj (pitch y y' x x' : Nat) (hp : 320 ≤ pitch / 4) (hx : x < 320)
    (hx' : x' < 320) (h : idx pitch y x = idx pitch y' x') : y = y' ∧ x = x' := by
  rcases Nat.lt_trichotomy y y' with hlt | heq | hgt
  · have := idx_row_lt pitch y y' x hp hx hlt
    unfold idx at this h
    omega
  · subst heq
    unfold idx at h
    exact ⟨rfl, by omega⟩
  · have := idx_row_lt pitch y' y x' hp hx' hgt
    unfold idx at this h
    omega

/-- The places written by a double loop over rows `g 0, g 1, ..` and 320 columns are
pairwise distinct when `g` is injective. -/
theorem nodup_keys (pitch n : Nat) (g : Nat → Nat) (hp : 320 ≤ pitch / 4)
    (hg : ∀ r r', g r = g r' → r = r') :
    ((List.range (n * 320)).map (fun i => idx pitch (g (i / 320)) (i % 320))).Nodup := by
  apply List.Nodup.map_on _ (List.nodup_range _)
  intro i _ i' _ h
  have := idx_inj pitch _ _ _ _ hp (Nat.mod_lt i (by norm_num)) (Nat.mod_lt i' (by norm_num)) h
  have h1 := hg _ _ this.1
  omega

theorem mem_keys (pitch n : Nat) (g : Nat → Nat) (j : Nat) :
    j ∈ (List.range (n * 320)).map (fun i => idx pitch (g (i / 320)) (i % 320)) ↔
      ∃ r x, r < n ∧ x < 320 ∧ j = idx pitch (g r) x := by
  rw [List.mem_map]
  constructor
  · rintro ⟨i, hi, rfl⟩
    rw [List.mem_range] at hi
    refine ⟨i / 320, i % 320, ?_, Nat.mod_lt i (by norm_num), rfl⟩
    exact Nat.div_lt_of_lt_mul (by rw [Nat.mul_comm]; exact hi)
  · rintro ⟨r, x, hr, hx, rfl⟩
    refine ⟨r * 320 + x, ?_, ?_⟩
    · rw [List.mem_range]
      have : (r + 1) * 320 ≤ n * 320 := Nat.mul_le_mul_right 320 hr
      omega
    · have e1 : (r * 320 + x) / 320 = r := by omega
      have e2 : (r * 320 + x) % 320 = x := by omega
      simp only [e1, e2]

/-! ## What each of the three loops leaves in the buffer -/

theorem blend_eq_foldl (sa pitch : Nat) (p : Pixels) :
    blend sa pitch p =
      (List.range (179 * 320)).foldl
        (fun q i => store q (idx pitch (2 * (i / 320) + 1) (i % 320))
          (effect sa (q (idx pitch (2 * (i / 320) + 1 - 1) (i % 320)))
            (q (idx pitch (2 * (i / 320) + 1 + 1) (i % 320))))) p := by
  unfold blend
  rw [cFor_oddRows]
  simp only [cFor_cols]
  exact foldl_foldl_range (fun q y x => blendPixel sa pitch y q x) (fun r => 2 * r + 1) 320
    (by norm_num) 179 p

theorem blend_spec (sa pitch : Nat) (p : Pixels) (hp : 320 ≤ pitch / 4) :
    (∀ j, (∀ r x, r < 179 → x < 320 → j ≠ idx pitch (2 * r + 1) x) →
        blend sa pitch p j = p j) ∧
    (∀ r x, r < 179 → x < 320 →
        blend sa pitch p (idx pitch (2 * r + 1) x) =
          effect sa (p (idx pitch (2 * r) x)) (p (idx pitch (2 * r + 2) x)) % 2 ^ 32) := by
  have hnd := nodup_keys pitch 179 (fun r => 2 * r + 1) hp (fun r r' h => by dsimp only at h; omega)
  have key := foldl_store_spec (fun i => idx pitch (2 * (i / 320) + 1) (i % 320))
    (fun q i => effect sa (q (idx pitch (2 * (i / 320) + 1 - 1) (i % 320)))
      (q (idx pitch (2 * (i / 320) + 1 + 1) (i % 320))))
    (List.range (179 * 320)) p hnd (by
      intro i _ q hq
      have hm : i % 320 < 320 := Nat.mod_lt i (by norm_num)
      have h1 : idx pitch (2 * (i / 320) + 1 - 1) (i % 320) ∉
          (List.range (179 * 320)).map (fun i => idx pitch (2 * (i / 320) + 1) (i % 320)) := by
        rw [mem_keys pitch 179 (fun r => 2 * r + 1)]
        rintro ⟨r, x, _, hx, h⟩
        have := (idx_inj pitch _ _ _ _ hp hm hx h).1
        omega
      have h2 : idx pitch (2 * (i / 320) + 1 + 1) (i % 320) ∉
          (List.range (179 * 320)).map (fun i => idx pitch (2 * (i / 320) + 1) (i % 320)) := by
        rw [mem_keys pitch 179 (fun r => 2 * r + 1)]
        rintro ⟨r, x, _, hx, h⟩
        have := (idx_inj pitch _ _ _ _ hp hm hx h).1
        omega
      show effect sa _ _ = effect sa _ _
      rw [hq _ h1, hq _ h2])
  rw [blend_eq_foldl]
  constructor
  · intro j hj
    apply key.1
    rw [mem_keys pitch 179 (fun r => 2 * r + 1)]
    rintro ⟨r, x, hr, hx, h⟩
    exact hj r x hr hx h
  · intro r x hr hx
    have hmem : r * 320 + x ∈ List.range (179 * 320) := by
      rw [List.mem_range]
      omega
    have e1 : (r * 320 + x) / 320 = r := by omega
    have e2 : (r * 320 + x) % 320 = x := by omega
    have := key.2 (r * 320 + x) hmem
    simp only [e1, e2] at this
    rw [this]
    rfl

theorem lastRow_spec (sa pitch : Nat) (p : Pixels) (hp : 320 ≤ pitch / 4) :
    (∀ j, (∀ x, x < 320 → j ≠ idx pitch 359 x) → lastRow sa pitch p j = p j) ∧
    (∀ x, x < 320 →
        lastRow sa pitch p (idx pitch 359 x) =
          ((p (idx pitch 358 x) &&& 0x00ffffff) ||| ((sa <<< 24) % 2 ^ 32)) % 2 ^ 32) := by
  have hmem : ∀ j, j ∈ (List.range 320).map (fun x => idx pitch 359 x) ↔
      ∃ x, x < 320 ∧ j = idx pitch 359 x := by
    intro j
    rw [List.mem_map]
    constructor
    · rintro ⟨x, hx, rfl⟩
      exact ⟨x, List.mem_range.mp hx, rfl⟩
    · rintro ⟨x, hx, rfl⟩
      exact ⟨x, List.mem_range.mpr hx, rfl⟩
  have hnd : ((List.range 320).map (fun x => idx pitch 359 x)).Nodup := by
    apply List.Nodup.map_on _ (List.nodup_range _)
    intro x hx x' hx' h
    exact (idx_inj pitch _ _ _ _ hp (List.mem_range.mp hx) (List.mem_range.mp hx') h).2
  have key := foldl_store_spec (fun x => idx pitch 359 x)
    (fun q x => (q (idx pitch 358 x) &&& 0x00ffffff) ||| ((sa <<< 24) % 2 ^ 32))
    (List.range 320) p hnd (by
      intro x hx q hq
      have h1 : idx pitch 358 x ∉ (List.range 320).map (fun x => idx pitch 359 x) := by
        rw [hmem]
        rintro ⟨x', hx', h⟩
        have := (idx_inj pitch _ _ _ _ hp (List.mem_range.mp hx) hx' h).1
        omega
      show (q _ &&& _) ||| _ = (p _ &&& _) ||| _
      rw [hq _ h1])
  have e : lastRow sa pitch p =
      (List.range 320).foldl (fun q x => store q (idx pitch 359 x)
        ((q (idx pitch 358 x) &&& 0x00ffffff) ||| ((sa <<< 24) % 2 ^ 32))) p := by
    unfold lastRow
    rw [cFor_cols]
    rfl
  rw [e]
  constructor
  · intro j hj
    apply key.1
    rw [hmem]
    rintro ⟨x, hx, h⟩
    exact hj x hx h
  · intro x hx
    exact key.2 x (List.mem_range.mpr hx)

theorem fillValue_snd (ord : EvalOrder) (g : Gen) :
    (fillValue ord g).2 = g.rnd8.2.rnd8.2 := by
  cases ord <;> rfl

theorem fill_gen_iterate (ord : EvalOrder) (g : Gen) (k : Nat) :
    (fun g => (fillValue ord g).2)^[k] g = ⟨rnd8_run (2 * k) g.st, g.calls + 2 * k⟩ := by
  induction k with
  | zero => rfl
  | succ k ih =>
    rw [Function.iterate_succ_apply', ih, fillValue_snd]
    simp only [Gen.rnd8, Nat.mul_succ, rnd8_run]
    rfl

theorem fill_eq_foldl (ord : EvalOrder) (pitch : Nat) (s : Gen × Pixels) :
    fill ord pitch s =
      (List.range (180 * 320)).foldl
        (fun s i => ((fillValue ord s.1).2,
          store s.2 (idx pitch (2 * (i / 320)) (i % 320)) (fillValue ord s.1).1)) s := by
  unfold fill
  rw [cFor_evenRows]
  simp only [cFor_cols]
  exact foldl_foldl_range (fun s y x => fillPixel ord pitch y s x) (fun r => 2 * r) 320
    (by norm_num) 180 s

theorem fill_spec (ord : EvalOrder) (pitch : Nat) (g : Gen) (p : Pixels)
    (hp : 320 ≤ pitch / 4) (out : Gen × Pixels) (hout : fill ord pitch (g, p) = out) :
    out.1 = ⟨rnd8_run 115200 g.st, g.calls + 115200⟩ ∧
    (∀ j, (∀ r x, r < 180 → x < 320 → j ≠ idx pitch (2 * r) x) → out.2 j = p j) ∧
    (∀ r x, r < 180 → x < 320 →
        out.2 (idx pitch (2 * r) x) =
          (fillValue ord ⟨rnd8_run (2 * (r * 320 + x)) g.st, g.calls + 2 * (r * 320 + x)⟩).1
            % 2 ^ 32) := by
  have hnd := nodup_keys pitch 180 (fun r => 2 * r) hp (fun r r' h => by dsimp only at h; omega)
  rw [fill_eq_foldl] at hout
  obtain ⟨k1, k2, k3⟩ := foldl_gen_store_spec (fun i => idx pitch (2 * (i / 320)) (i % 320))
    (fillValue ord) (List.range (180 * 320)) g p hnd out hout
  refine ⟨?_, ?_, ?_⟩
  · have e : 2 * (180 * 320) = 115200 := by norm_num
    rw [k1, List.length_range, fill_gen_iterate, e]
  · intro j hj
    apply k2
    rw [mem_keys pitch 180 (fun r => 2 * r)]
    rintro ⟨r, x, hr, hx, h⟩
    exact hj r x hr hx h
  · intro r x hr hx
    have hlen : r * 320 + x < 180 * 320 := by omega
    have e1 : (r * 320 + x) / 320 = r := by omega
    have e2 : (r * 320 + x) % 320 = x := by omega
    have := k3 (r * 320 + x) (r * 320 + x) (List.getElem?_range hlen)
    rw [fill_gen_iterate] at this
    simp only [e1, e2] at this
    exact this

/-- Blend followed by the last-row loop, on a buffer `q`: even rows are kept, odd rows below
358 hold the blend expression of their neighbours in `q`, row 359 holds the last-row
expression of row 358 of `q`. -/
theorem post_spec (sa pitch : Nat) (q : Pixels) (hp : 320 ≤ pitch / 4) :
    (∀ r x, r < 180 → x < 320 →
        lastRow sa pitch (blend sa pitch q) (idx pitch (2 * r) x) = q (idx pitch (2 * r) x)) ∧
    (∀ r x, r < 179 → x < 320 →
        lastRow sa pitch (blend sa pitch q) (idx pitch (2 * r + 1) x) =
          effect sa (q (idx pitch (2 * r) x)) (q (idx pitch (2 * r + 2) x)) % 2 ^ 32) ∧
    (∀ x, x < 320 →
        lastRow sa pitch (blend sa pitch q) (idx pitch 359 x) =
          ((q (idx pitch 358 x) &&& 0x00ffffff) ||| ((sa <<< 24) % 2 ^ 32)) % 2 ^ 32) := by
  obtain ⟨b1, b2⟩ := blend_spec sa pitch q hp
  obtain ⟨l1, l2⟩ := lastRow_spec sa pitch (blend sa pitch q) hp
  have keep : ∀ r x, r < 180 → x < 320 →
      blend sa pitch q (idx pitch (2 * r) x) = q (idx pitch (2 * r) x) := by
    intro r x _ hx
    apply b1
    intro r' x' _ hx' h
    have := (idx_inj pitch _ _ _ _ hp hx hx' h).1
    omega
  refine ⟨?_, ?_, ?_⟩
  · intro r x hr hx
    rw [l1, keep r x hr hx]
    intro x' hx' h
    have := (idx_inj pitch _ _ _ _ hp hx hx' h).1
    omega
  · intro r x hr hx
    rw [l1, b2 r x hr hx]
    intro x' hx' h
    have := (idx_inj pitch _ _ _ _ hp hx hx' h).1
    omega
  · intro x hx
    rw [l2 x hx]
    have := keep 179 x (by omega) hx
    rw [show 2 * 179 = 358 from rfl] at this
    rw [this]

theorem composite_pixels (ord : EvalOrder) (sa pitch : Nat) (s : Gen × Pixels) :
    (SDL_AppIterate ord sa pitch s).2 =
      lastRow sa pitch (blend sa pitch (fill ord pitch s).2) := by
  simp only [SDL_AppIterate]

theorem composite_gen (ord : EvalOrder) (sa pitch : Nat) (s : Gen × Pixels) :
    (SDL_AppIterate ord sa pitch s).1 = (fill ord pitch s).1 := by
  simp only [SDL_AppIterate]

/-- Channels of a blended word. -/
theorem effect_channels (sa t d : Nat) (hsa : sa < 256) :
    alphaOf (effect sa t d % 2 ^ 32) = sa ∧
    redOf (effect sa t d % 2 ^ 32) = (redOf t + redOf d) / 2 ∧
    greenOf (effect sa t d % 2 ^ 32) = (greenOf t + greenOf d) / 2 ∧
    blueOf (effect sa t d % 2 ^ 32) = (blueOf t + blueOf d) / 2 := by
  have hr : redOf t < 256 := by rw [redOf_eq]; exact Nat.mod_lt _ (by norm_num)
  have hr' : redOf d < 256 := by rw [redOf_eq]; exact Nat.mod_lt _ (by norm_num)
  have hg : greenOf t < 256 := by rw [greenOf_eq]; exact Nat.mod_lt _ (by norm_num)
  have hg' : greenOf d < 256 := by rw [greenOf_eq]; exact Nat.mod_lt _ (by norm_num)
  have hb : blueOf t < 256 := by rw [blueOf_eq]; exact Nat.mod_lt _ (by norm_num)
  have hb' : blueOf d < 256 := by rw [blueOf_eq]; exact Nat.mod_lt _ (by norm_num)
  obtain ⟨h0, h1, h2, h3, h4⟩ := channels_of_bytes sa ((redOf t + redOf d) / 2)
    ((greenOf t + greenOf d) / 2) ((blueOf t + blueOf d) / 2) hsa (by omega) (by omega)
    (by omega)
  rw [effect_eq sa t d hsa, Nat.mod_eq_of_lt h0]
  exact ⟨h1, h2, h3, h4⟩

/-- Channels of a last-row word. -/
theorem lastRow_channels (sa v : Nat) (hsa : sa < 256) :
    alphaOf (((v &&& 0x00ffffff) ||| ((sa <<< 24) % 2 ^ 32)) % 2 ^ 32) = sa ∧
    ((v &&& 0x00ffffff) ||| ((sa <<< 24) % 2 ^ 32)) % 2 ^ 32 % 2 ^ 24 = v % 2 ^ 24 ∧
    redOf (((v &&& 0x00ffffff) ||| ((sa <<< 24) % 2 ^ 32)) % 2 ^ 32) = redOf v ∧
    greenOf (((v &&& 0x00ffffff) ||| ((sa <<< 24) % 2 ^ 32)) % 2 ^ 32) = greenOf v ∧
    blueOf (((v &&& 0x00ffffff) ||| ((sa <<< 24) % 2 ^ 32)) % 2 ^ 32) = blueOf v := by
  rw [lastRow_word_eq sa v hsa]
  simp only [alphaOf_eq, redOf_eq, greenOf_eq, blueOf_eq]
  norm_num
  refine ⟨?_, ?_, ?_, ?_, ?_⟩ <;> omega

/-- Channels of a fill word. -/
theorem fill_channels (r1 r2 : Nat) (h1 : r1 < 256) (h2 : r2 < 256) :
    alphaOf ((0xff000000 ||| (r1 <<< 16) ||| r2) % 2 ^ 32) = 0xff ∧
    redOf ((0xff000000 ||| (r1 <<< 16) ||| r2) % 2 ^ 32) = r1 ∧
    greenOf ((0xff000000 ||| (r1 <<< 16) ||| r2) % 2 ^ 32) = 0 ∧
    blueOf ((0xff000000 ||| (r1 <<< 16) ||| r2) % 2 ^ 32) = r2 := by
  obtain ⟨k0, k1, k2, k3, k4⟩ := channels_of_bytes 255 r1 0 r2 (by norm_num) h1
    (by norm_num) h2
  rw [fill_word_eq r1 r2 h1 h2, Nat.mod_eq_of_lt k0]
  exact ⟨k1, k2, k3, k4⟩

theorem post_blendRule (sa pitch : Nat) (q : Pixels) (hp : 320 ≤ pitch / 4) (hsa : sa < 256)
    (r x : Nat) (hr : r < 179) (hx : x < 320) :
    BlendRule sa pitch (lastRow sa pitch (blend sa pitch q)) x (2 * r + 1) := by
  obtain ⟨s1, s2, _⟩ := post_spec sa pitch q hp
  have e1 : 2 * r + 1 - 1 = 2 * r := by omega
  have e2 : 2 * r + 1 + 1 = 2 * (r + 1) := by omega
  have t1 := s1 r x (by omega) hx
  have t2 := s1 (r + 1) x (by omega) hx
  have t3 := s2 r x hr hx
  rw [show 2 * r + 2 = 2 * (r + 1) by omega] at t3
  obtain ⟨c0, c1, c2, c3⟩ := effect_channels sa (q (idx pitch (2 * r) x))
    (q (idx pitch (2 * (r + 1)) x)) hsa
  unfold BlendRule pixelAt
  rw [e1, e2, t1, t2, t3]
  exact ⟨c1, c2, c3, c0⟩

theorem post_lastRowRule (sa pitch : Nat) (q : Pixels) (hp : 320 ≤ pitch / 4) (hsa : sa < 256)
    (x : Nat) (hx : x < 320) :
    LastRowRule sa pitch (lastRow sa pitch (blend sa pitch q)) x := by
  obtain ⟨s1, _, s3⟩ := post_spec sa pitch q hp
  have t1 := s1 179 x (by omega) hx
  rw [show 2 * 179 = 358 from rfl] at t1
  have t3 := s3 x hx
  obtain ⟨c0, c1, c2, c3, c4⟩ := lastRow_channels sa (q (idx pitch 358 x)) hsa
  have e1 : TEXTURE_HEIGHT - 1 = 359 := rfl
  have e2 : TEXTURE_HEIGHT - 2 = 358 := rfl
  unfold LastRowRule pixelAt
  rw [e1, e2, t1, t3]
  exact ⟨c1, c2, c3, c4, c0⟩

/-! ## Claims about the compositing part of `SDL_AppIterate` -/

/-- C2: after compositing, for every odd row `y` with `1 ≤ y < TEXTURE_HEIGHT - 2` and every
column `x < TEXTURE_WIDTH`, the red, green and blue channels of pixel `(x, y)` are each the
truncating mean of the same channel of pixels `(x, y - 1)` and `(x, y + 1)`, with no carry
between channels, and the alpha channel is `scanline_alpha`. This holds for the frame that
`SDL_AppIterate` produces, and for blend plus last-row applied to a buffer with any
contents in its even rows. -/
theorem blend_rows_are_averages (ord : EvalOrder) (sa pitch : Nat) (g : Gen) (p : Pixels)
    (hp : TEXTURE_WIDTH ≤ pitch / 4) (hsa : sa < 256) (x y : Nat)
    (hy1 : 1 ≤ y) (hy2 : y < TEXTURE_HEIGHT - 2) (hodd : y % 2 = 1) (hx : x < TEXTURE_WIDTH) :
    BlendRule sa pitch (SDL_AppIterate ord sa pitch (g, p)).2 x y ∧
    ∀ q : Pixels, BlendRule sa pitch (lastRow sa pitch (blend sa pitch q)) x y := by
  have e2 : TEXTURE_HEIGHT - 2 = 358 := rfl
  rw [e2] at hy2
  obtain ⟨r, rfl⟩ : ∃ r, y = 2 * r + 1 := ⟨y / 2, by omega⟩
  rw [composite_pixels]
  exact ⟨post_blendRule sa pitch _ hp hsa r x (by omega) hx,
    fun q => post_blendRule sa pitch q hp hsa r x (by omega) hx⟩

theorem blend_rows_are_averages_witness :
    (TEXTURE_WIDTH ≤ 1280 / 4 ∧ 0xb0 < 256 ∧ 1 ≤ 357 ∧ 357 < TEXTURE_HEIGHT - 2 ∧
      357 % 2 = 1 ∧ 319 < TEXTURE_WIDTH) ∧
    BlendRule 0xb0 1280
      (SDL_AppIterate .leftToRight 0xb0 1280 (⟨Rnd8State.zero, 0⟩, fun _ => 0)).2 319 357 :=
  ⟨by decide,
    (blend_rows_are_averages .leftToRight 0xb0 1280 ⟨Rnd8State.zero, 0⟩ (fun _ => 0)
      (by decide) (by decide) 319 357 (by decide) (by decide) (by decide) (by decide)).1⟩

/-- C3: after compositing, for every column `x < TEXTURE_WIDTH` and every byte
`scanline_alpha`, the low 24 bits of the pixel in the final row 359 are the low 24 bits of
the pixel in row 358, and its alpha channel is `scanline_alpha`; this holds for the frame of
`SDL_AppIterate` and for any buffer contents, and the blend loop writes neither row 358 nor
row 359. -/
theorem last_row_copies_row_above (ord : EvalOrder) (sa pitch : Nat) (g : Gen) (p : Pixels)
    (hp : TEXTURE_WIDTH ≤ pitch / 4) (hsa : sa < 256) (x : Nat) (hx : x < TEXTURE_WIDTH) :
    LastRowRule sa pitch (SDL_AppIterate ord sa pitch (g, p)).2 x ∧
    (∀ q : Pixels, LastRowRule sa pitch (lastRow sa pitch (blend sa pitch q)) x) ∧
    (∀ q : Pixels,
      pixelAt pitch (blend sa pitch q) x (TEXTURE_HEIGHT - 2) =
          pixelAt pitch q x (TEXTURE_HEIGHT - 2) ∧
      pixelAt pitch (blend sa pitch q) x (TEXTURE_HEIGHT - 1) =
          pixelAt pitch q x (TEXTURE_HEIGHT - 1)) := by
  rw [composite_pixels]
  refine ⟨post_lastRowRule sa pitch _ hp hsa x hx,
    fun q => post_lastRowRule sa pitch q hp hsa x hx, fun q => ?_⟩
  have e1 : TEXTURE_HEIGHT - 1 = 359 := rfl
  have e2 : TEXTURE_HEIGHT - 2 = 358 := rfl
  unfold pixelAt
  rw [e1, e2]
  constructor
  · apply (blend_spec sa pitch q hp).1
    intro r x' _ hx' h
    have := (idx_inj pitch _ _ _ _ hp hx hx' h).1
    omega
  · apply (blend_spec sa pitch q hp).1
    intro r x' hr hx' h
    have := (idx_inj pitch _ _ _ _ hp hx hx' h).1
    omega

theorem last_row_copies_row_above_witness :
    (TEXTURE_WIDTH ≤ 1280 / 4 ∧ 0xff < 256 ∧ 319 < TEXTURE_WIDTH) ∧
    LastRowRule 0xff 1280
      (SDL_AppIterate .rightToLeft 0xff 1280 (⟨Rnd8State.zero, 0⟩, fun _ => 0)).2 319 :=
  ⟨by decide,
    (last_row_copies_row_above .rightToLeft 0xff 1280 ⟨Rnd8State.zero, 0⟩ (fun _ => 0)
      (by decide) (by decide) 319 (by decide)).1⟩

/-- The word the fill loop stores at row-major position `k` of the even rows, when the
operands are evaluated in the order written. -/
theorem fill_word_channels (g : Gen) (k : Nat) :
    alphaOf ((fillValue .leftToRight ⟨rnd8_run (2 * k) g.st, g.calls + 2 * k⟩).1 % 2 ^ 32) =
        0xff ∧
    redOf ((fillValue .leftToRight ⟨rnd8_run (2 * k) g.st, g.calls + 2 * k⟩).1 % 2 ^ 32) =
        rnd8_output (2 * k + 1) g.st ∧
    greenOf ((fillValue .leftToRight ⟨rnd8_run (2 * k) g.st, g.calls + 2 * k⟩).1 % 2 ^ 32) =
        0 ∧
    blueOf ((fillValue .leftToRight ⟨rnd8_run (2 * k) g.st, g.calls + 2 * k⟩).1 % 2 ^ 32) =
        rnd8_output (2 * k + 2) g.st := by
  have e : (fillValue .leftToRight ⟨rnd8_run (2 * k) g.st, g.calls + 2 * k⟩).1 =
      0xff000000 ||| (rnd8_output (2 * k + 1) g.st <<< 16) ||| rnd8_output (2 * k + 2) g.st :=
    rfl
  rw [e]
  exact fill_channels _ _ (rnd8_lt _) (rnd8_lt _)

/-- The word the fill loop stores at row-major position `k` of the even rows, when the
right operand is evaluated first. -/
theorem fill_word_channels_rtl (g : Gen) (k : Nat) :
    alphaOf ((fillValue .rightToLeft ⟨rnd8_run (2 * k) g.st, g.calls + 2 * k⟩).1 % 2 ^ 32) =
        0xff ∧
    redOf ((fillValue .rightToLeft ⟨rnd8_run (2 * k) g.st, g.calls + 2 * k⟩).1 % 2 ^ 32) =
        rnd8_output (2 * k + 2) g.st ∧
    greenOf ((fillValue .rightToLeft ⟨rnd8_run (2 * k) g.st, g.calls + 2 * k⟩).1 % 2 ^ 32) =
        0 ∧
    blueOf ((fillValue .rightToLeft ⟨rnd8_run (2 * k) g.st, g.calls + 2 * k⟩).1 % 2 ^ 32) =
        rnd8_output (2 * k + 1) g.st := by
  have e : (fillValue .rightToLeft ⟨rnd8_run (2 * k) g.st, g.calls + 2 * k⟩).1 =
      0xff000000 ||| (rnd8_output (2 * k + 2) g.st <<< 16) ||| rnd8_output (2 * k + 1) g.st :=
    rfl
  rw [e]
  exact fill_channels _ _ (rnd8_lt _) (rnd8_lt _)

/-- After compositing, the pixel at column `x` of even row `2 * r` is the word of the fill
expression drawn at row-major position `r * 320 + x`, for either operand order. -/
theorem even_row_pixel (ord : EvalOrder) (sa pitch : Nat) (g : Gen) (p : Pixels)
    (hp : 320 ≤ pitch / 4) (r x : Nat) (hr : r < 180) (hx : x < 320) :
    pixelAt pitch (SDL_AppIterate ord sa pitch (g, p)).2 x (2 * r) =
      (fillValue ord
        ⟨rnd8_run (2 * (r * 320 + x)) g.st, g.calls + 2 * (r * 320 + x)⟩).1 % 2 ^ 32 := by
  obtain ⟨_, _, f3⟩ := fill_spec ord pitch g p hp _ rfl
  unfold pixelAt
  rw [composite_pixels, (post_spec sa pitch _ hp).1 r x hr hx, f3 r x hr hx]

/-- C4, as stated: when the compiler evaluates the right `rnd8()` operand of the fill
expression first, the red channel of pixel `(0, 0)` of the frame drawn from the all-zero
generator is output number 2 (the byte 192), not output number `2k+1 = 1` (the byte 129). -/
theorem even_rows_red_not_first_output :
    ¬ (redOf (pixelAt 1280
          (SDL_AppIterate .rightToLeft 0xb0 1280 (⟨Rnd8State.zero, 0⟩, fun _ => 0)).2 0 0) =
        rnd8_output (2 * (0 / 2 * TEXTURE_WIDTH + 0) + 1) Rnd8State.zero) := by
  have h := even_row_pixel .rightToLeft 0xb0 1280 ⟨Rnd8State.zero, 0⟩ (fun _ => 0)
    (by decide) 0 0 (by decide) (by decide)
  have c := (fill_word_channels_rtl ⟨Rnd8State.zero, 0⟩ (0 * 320 + 0)).2.1
  rw [show (2 * 0 : Nat) = 0 from rfl] at h
  rw [h, c]
  decide

/-- C4, amended: after compositing, every pixel `(x, y)` of an even row `y < 360`, `x < 320`,
has alpha `0xFF` and green 0, and its red and blue channels are generator outputs number
`2k+1` and `2k+2` counted from the state at the start of the frame, `k = (y/2)*320 + x`,
in the order in which the two `rnd8()` operands are evaluated: red is output `2k+1` and blue
output `2k+2` when they are evaluated as written, red is output `2k+2` and blue output
`2k+1` when the right operand is evaluated first. In either order the fill loop makes
exactly `2*320*180 = 115200` calls of `rnd8`, and the generator after the whole frame is the
generator after the fill loop (blend and last-row make no call). -/
theorem even_rows_from_generator (sa pitch : Nat) (g : Gen) (p : Pixels)
    (hp : TEXTURE_WIDTH ≤ pitch / 4) (x y : Nat)
    (hy : y < TEXTURE_HEIGHT) (heven : y % 2 = 0) (hx : x < TEXTURE_WIDTH) :
    (∀ ord : EvalOrder,
      alphaOf (pixelAt pitch (SDL_AppIterate ord sa pitch (g, p)).2 x y) = 0xff ∧
      greenOf (pixelAt pitch (SDL_AppIterate ord sa pitch (g, p)).2 x y) = 0) ∧
    (redOf (pixelAt pitch (SDL_AppIterate .leftToRight sa pitch (g, p)).2 x y) =
        rnd8_output (2 * (y / 2 * TEXTURE_WIDTH + x) + 1) g.st ∧
      blueOf (pixelAt pitch (SDL_AppIterate .leftToRight sa pitch (g, p)).2 x y) =
        rnd8_output (2 * (y / 2 * TEXTURE_WIDTH + x) + 2) g.st) ∧
    (redOf (pixelAt pitch (SDL_AppIterate .rightToLeft sa pitch (g, p)).2 x y) =
        rnd8_output (2 * (y / 2 * TEXTURE_WIDTH + x) + 2) g.st ∧
      blueOf (pixelAt pitch (SDL_AppIterate .rightToLeft sa pitch (g, p)).2 x y) =
        rnd8_output (2 * (y / 2 * TEXTURE_WIDTH + x) + 1) g.st) ∧
    (∀ ord : EvalOrder,
      (fill ord pitch (g, p)).1.calls = g.calls + 2 * 320 * 180 ∧
      (SDL_AppIterate ord sa pitch (g, p)).1 = (fill ord pitch (g, p)).1 ∧
      (SDL_AppIterate ord sa pitch (g, p)).1.calls = g.calls + 115200) := by
  have eh : TEXTURE_HEIGHT = 360 := rfl
  have ew : TEXTURE_WIDTH = 320 := rfl
  rw [eh] at hy
  rw [ew] at hx hp ⊢
  obtain ⟨r, rfl⟩ : ∃ r, y = 2 * r := ⟨y / 2, by omega⟩
  have hr : r < 180 := by omega
  have ediv : 2 * r / 2 = r := by omega
  obtain ⟨c0, c1, c2, c3⟩ := fill_word_channels g (r * 320 + x)
  obtain ⟨d0, d1, d2, d3⟩ := fill_word_channels_rtl g (r * 320 + x)
  have hl := even_row_pixel .leftToRight sa pitch g p hp r x hr hx
  have hrl := even_row_pixel .rightToLeft sa pitch g p hp r x hr hx
  rw [ediv]
  refine ⟨fun ord => ?_, ?_, ?_, fun ord => ?_⟩
  · cases ord
    · rw [hl]
      exact ⟨c0, c2⟩
    · rw [hrl]
      exact ⟨d0, d2⟩
  · rw [hl]
    exact ⟨c1, c3⟩
  · rw [hrl]
    exact ⟨d1, d3⟩
  · obtain ⟨f1, _, _⟩ := fill_spec ord pitch g p hp _ rfl
    rw [composite_gen, f1]
    exact ⟨rfl, rfl, rfl⟩

theorem even_rows_from_generator_witness :
    (TEXTURE_WIDTH ≤ 1280 / 4 ∧ 358 < TEXTURE_HEIGHT ∧ 358 % 2 = 0 ∧ 319 < TEXTURE_WIDTH) ∧
    (redOf (pixelAt 1280
        (SDL_AppIterate .leftToRight 0xb0 1280 (⟨Rnd8State.zero, 0⟩, fun _ => 0)).2 319 358) =
        rnd8_output (2 * (358 / 2 * TEXTURE_WIDTH + 319) + 1) Rnd8State.zero ∧
      blueOf (pixelAt 1280
        (SDL_AppIterate .leftToRight 0xb0 1280 (⟨Rnd8State.zero, 0⟩, fun _ => 0)).2 319 358) =
        rnd8_output (2 * (358 / 2 * TEXTURE_WIDTH + 319) + 2) Rnd8State.zero) ∧
    (redOf (pixelAt 1280
        (SDL_AppIterate .rightToLeft 0xb0 1280 (⟨Rnd8State.zero, 0⟩, fun _ => 0)).2 319 358) =
        rnd8_output (2 * (358 / 2 * TEXTURE_WIDTH + 319) + 2) Rnd8State.zero ∧
      blueOf (pixelAt 1280
        (SDL_AppIterate .rightToLeft 0xb0 1280 (⟨Rnd8State.zero, 0⟩, fun _ => 0)).2 319 358) =
        rnd8_output (2 * (358 / 2 * TEXTURE_WIDTH + 319) + 1) Rnd8State.zero) :=
  ⟨by decide,
    (even_rows_from_generator 0xb0 1280 ⟨Rnd8State.zero, 0⟩ (fun _ => 0) (by decide)
      319 358 (by decide) (by decide) (by decide)).2.1,
    (even_rows_from_generator 0xb0 1280 ⟨Rnd8State.zero, 0⟩ (fun _ => 0) (by decide)
      319 358 (by decide) (by decide) (by decide)).2.2.1⟩

/-- C5: the composited frame depends only on the generator and `scanline_alpha` at the start
of the frame: from the same generator and the same `scanline_alpha`, and from any two
previous buffer contents, the generator afterwards is the same and all 320 by 360 pixels
are bit-identical. -/
theorem frame_is_deterministic (ord : EvalOrder) (sa pitch : Nat) (g : Gen) (p1 p2 : Pixels)
    (hp : TEXTURE_WIDTH ≤ pitch / 4) :
    (SDL_AppIterate ord sa pitch (g, p1)).1 = (SDL_AppIterate ord sa pitch (g, p2)).1 ∧
    ∀ x y, x < TEXTURE_WIDTH → y < TEXTURE_HEIGHT →
      pixelAt pitch (SDL_AppIterate ord sa pitch (g, p1)).2 x y =
        pixelAt pitch (SDL_AppIterate ord sa pitch (g, p2)).2 x y := by
  have eh : TEXTURE_HEIGHT = 360 := rfl
  have ew : TEXTURE_WIDTH = 320 := rfl
  rw [eh, ew]
  rw [ew] at hp
  obtain ⟨a1, _, a3⟩ := fill_spec ord pitch g p1 hp _ rfl
  obtain ⟨b1, _, b3⟩ := fill_spec ord pitch g p2 hp _ rfl
  have even : ∀ r x, r < 180 → x < 320 →
      (fill ord pitch (g, p1)).2 (idx pitch (2 * r) x) =
        (fill ord pitch (g, p2)).2 (idx pitch (2 * r) x) := by
    intro r x hr hx
    rw [a3 r x hr hx, b3 r x hr hx]
  obtain ⟨s1, s2, s3⟩ := post_spec sa pitch (fill ord pitch (g, p1)).2 hp
  obtain ⟨t1, t2, t3⟩ := post_spec sa pitch (fill ord pitch (g, p2)).2 hp
  constructor
  · rw [composite_gen, composite_gen, a1, b1]
  · intro x y hx hy
    unfold pixelAt
    rw [composite_pixels, composite_pixels]
    rcases Nat.mod_two_eq_zero_or_one y with h0 | h1
    · obtain ⟨r, rfl⟩ : ∃ r, y = 2 * r := ⟨y / 2, by omega⟩
      rw [s1 r x (by omega) hx, t1 r x (by omega) hx, even r x (by omega) hx]
    · obtain ⟨r, rfl⟩ : ∃ r, y = 2 * r + 1 := ⟨y / 2, by omega⟩
      by_cases hr : r < 179
      · rw [s2 r x hr hx, t2 r x hr hx, even r x (by omega) hx]
        have := even (r + 1) x (by omega) hx
        rw [show 2 * (r + 1) = 2 * r + 2 by omega] at this
        rw [this]
      · have e : 2 * r + 1 = 359 := by omega
        have := even 179 x (by omega) hx
        rw [show 2 * 179 = 358 from rfl] at this
        rw [e, s3 x hx, t3 x hx, this]

theorem frame_is_deterministic_witness :
    TEXTURE_WIDTH ≤ 1280 / 4 ∧
    (SDL_AppIterate .leftToRight 0xb0 1280 (⟨Rnd8State.zero, 0⟩, fun _ => 0)).1 =
      (SDL_AppIterate .leftToRight 0xb0 1280 (⟨Rnd8State.zero, 0⟩, fun j => j)).1 :=
  ⟨by decide,
    (frame_is_deterministic .leftToRight 0xb0 1280 ⟨Rnd8State.zero, 0⟩ (fun _ => 0)
      (fun j => j) (by decide)).1⟩

/-! ## The event handler -/

/-- The displayed index names the mode the texture holds. -/
theorem inv_step (st : AppState) (ev : Event)
    (h : (st.textureScaleMode = .nearest ∧ st.current_scale_mode = 0) ∨
      (st.textureScaleMode = .pixelart ∧ st.current_scale_mode = 1) ∨
      (st.textureScaleMode = .linear ∧ st.current_scale_mode = 2)) :
    ((SDL_AppEvent st ev).2.textureScaleMode = .nearest ∧
        (SDL_AppEvent st ev).2.current_scale_mode = 0) ∨
      ((SDL_AppEvent st ev).2.textureScaleMode = .pixelart ∧
        (SDL_AppEvent st ev).2.current_scale_mode = 1) ∨
      ((SDL_AppEvent st ev).2.textureScaleMode = .linear ∧
        (SDL_AppEvent st ev).2.current_scale_mode = 2) := by
  obtain ⟨sa, csm, fs, tm, wf⟩ := st
  simp only at h
  cases ev with
  | mouseButtonDown =>
    rcases h with ⟨h1, h2⟩ | ⟨h1, h2⟩ | ⟨h1, h2⟩ <;> subst h1 <;> subst h2 <;>
      simp [SDL_AppEvent, onMouseButtonDown]
  | keyDown sc =>
    cases sc <;> simpa [SDL_AppEvent, onKeyDown] using h
  | quit => simpa [SDL_AppEvent] using h
  | other => simpa [SDL_AppEvent] using h

theorem inv_foldl (evs : List Event) :
    ∀ st : AppState,
      ((st.textureScaleMode = .nearest ∧ st.current_scale_mode = 0) ∨
        (st.textureScaleMode = .pixelart ∧ st.current_scale_mode = 1) ∨
        (st.textureScaleMode = .linear ∧ st.current_scale_mode = 2)) →
      (((evs.foldl (fun st ev => (SDL_AppEvent st ev).2) st).textureScaleMode = .nearest ∧
          (evs.foldl (fun st ev => (SDL_AppEvent st ev).2) st).current_scale_mode = 0) ∨
        ((evs.foldl (fun st ev => (SDL_AppEvent st ev).2) st).textureScaleMode = .pixelart ∧
          (evs.foldl (fun st ev => (SDL_AppEvent st ev).2) st).current_scale_mode = 1) ∨
        ((evs.foldl (fun st ev => (SDL_AppEvent st ev).2) st).textureScaleMode = .linear ∧
          (evs.foldl (fun st ev => (SDL_AppEvent st ev).2) st).current_scale_mode = 2)) := by
  induction evs with
  | nil => intro st h; exact h
  | cons ev evs ih =>
    intro st h
    rw [List.foldl_cons]
    exact ih _ (inv_step st ev h)

/-- C7: in `SDL_AppEvent` a key-down with scancode Up sets `scanline_alpha` to
`(v + 2) mod 256` and one with scancode Down sets it to `(v - 2) mod 256`, without
clamping (Up at `0xFE` gives 0, Down at 0 gives `0xFE`); in both cases the scale-mode
index, the texture's scale mode and the fullscreen flag are unchanged. -/
theorem arrow_keys_wrap_alpha (st : AppState) :
    (SDL_AppEvent st (.keyDown .up)).2 =
        { st with scanline_alpha := (st.scanline_alpha + 2) % 256 } ∧
    (SDL_AppEvent st (.keyDown .down)).2 =
        { st with scanline_alpha := (((st.scanline_alpha : Int) - 2) % 256).toNat } ∧
    (((SDL_AppEvent st (.keyDown .down)).2.scanline_alpha : Nat) : Int) =
        ((st.scanline_alpha : Int) - 2) % 256 ∧
    (SDL_AppEvent { st with scanline_alpha := 0xFE } (.keyDown .up)).2.scanline_alpha = 0 ∧
    (SDL_AppEvent { st with scanline_alpha := 0 } (.keyDown .down)).2.scanline_alpha = 0xFE ∧
    (SDL_AppEvent st (.keyDown .up)).2.current_scale_mode = st.current_scale_mode ∧
    (SDL_AppEvent st (.keyDown .down)).2.current_scale_mode = st.current_scale_mode ∧
    (SDL_AppEvent st (.keyDown .up)).2.fullscreen = st.fullscreen ∧
    (SDL_AppEvent st (.keyDown .down)).2.fullscreen = st.fullscreen := by
  obtain ⟨sa, csm, fs, tm, wf⟩ := st
  have e : (((sa : Int) + 2) % 256).toNat = (sa + 2) % 256 := by omega
  have e2 : (((((sa : Int) - 2) % 256).toNat : Nat) : Int) = ((sa : Int) - 2) % 256 := by
    omega
  simp [SDL_AppEvent, onKeyDown, e, e2]

/-- C8: a mouse-button-down maps the texture scale mode nearest to pixel-art, pixel-art to
linear and linear to nearest, and sets `current_scale_mode` to the index of the new mode in
`modes[]`; three clicks restore each of the three modes; after any sequence of events from
the initial state the index is within `0..2` and `modes[current_scale_mode]` names the mode
the texture holds. -/
theorem click_cycles_scale_mode (st : AppState) (evs : List Event) :
    (SDL_AppEvent { st with textureScaleMode := .nearest } .mouseButtonDown).2 =
        { st with textureScaleMode := .pixelart, current_scale_mode := 1 } ∧
    (SDL_AppEvent { st with textureScaleMode := .pixelart } .mouseButtonDown).2 =
        { st with textureScaleMode := .linear, current_scale_mode := 2 } ∧
    (SDL_AppEvent { st with textureScaleMode := .linear } .mouseButtonDown).2 =
        { st with textureScaleMode := .nearest, current_scale_mode := 0 } ∧
    (modes[0]? = some SDL_ScaleMode.nearest.name ∧ modes[1]? = some SDL_ScaleMode.pixelart.name ∧
      modes[2]? = some SDL_ScaleMode.linear.name) ∧
    ((SDL_AppEvent (SDL_AppEvent (SDL_AppEvent { st with textureScaleMode := .nearest }
        .mouseButtonDown).2 .mouseButtonDown).2 .mouseButtonDown).2.textureScaleMode =
          .nearest ∧
      (SDL_AppEvent (SDL_AppEvent (SDL_AppEvent { st with textureScaleMode := .pixelart }
        .mouseButtonDown).2 .mouseButtonDown).2 .mouseButtonDown).2.textureScaleMode =
          .pixelart ∧
      (SDL_AppEvent (SDL_AppEvent (SDL_AppEvent { st with textureScaleMode := .linear }
        .mouseButtonDown).2 .mouseButtonDown).2 .mouseButtonDown).2.textureScaleMode =
          .linear) ∧
    (0 ≤ (runEvents evs).current_scale_mode ∧ (runEvents evs).current_scale_mode ≤ 2 ∧
      modes[(runEvents evs).current_scale_mode.toNat]? =
        some (runEvents evs).textureScaleMode.name) := by
  obtain ⟨sa, csm, fs, tm, wf⟩ := st
  refine ⟨by simp [SDL_AppEvent, onMouseButtonDown], by simp [SDL_AppEvent, onMouseButtonDown],
    by simp [SDL_AppEvent, onMouseButtonDown], by decide,
    by simp [SDL_AppEvent, onMouseButtonDown], ?_⟩
  have h := inv_foldl evs AppState.init (Or.inr (Or.inl ⟨rfl, rfl⟩))
  unfold runEvents
  rcases h with ⟨h1, h2⟩ | ⟨h1, h2⟩ | ⟨h1, h2⟩ <;> rw [h1, h2] <;> decide

/-! ## The window size -/

/-- C1: for every state of four bytes one call of `rnd8` returns the byte and leaves the
state that the specification's modulo-256 recurrence gives (so the untruncated promoted
rotation expression yields the same `c` as the 8-bit rotation), and for every `N` the
first `N` bytes drawn from the all-zero state are the first `N` bytes of the reference
recurrence. -/
theorem rnd8_refines_spec (s : Rnd8State) (h : s.IsBytes) :
    rnd8 s = spec_rnd8 s ∧
    (rnd8 s).1 = (rnd8 s).2.c ∧
    (rnd8 s).2.x = (s.x + 1) % 256 ∧
    (rnd8 s).2.a = (s.a ^^^ s.c) ^^^ (rnd8 s).2.x ∧
    (rnd8 s).2.b = (s.b + (rnd8 s).2.a) % 256 ∧
    (rnd8 s).2.c = ((s.c + spec_rot (rnd8 s).2.b) % 256) ^^^ (rnd8 s).2.a ∧
    ∀ N, rnd8_stream N Rnd8State.zero = spec_stream N Rnd8State.zero := by
  have e := rnd8_eq_spec s h
  refine ⟨e, ?_, ?_, ?_, ?_, ?_, ?_⟩
  · rfl
  · rfl
  · rw [e]; rfl
  · rw [e]; rfl
  · rw [e]; rfl
  · intro N
    exact rnd8_stream_eq_spec N _ (by decide)

theorem rnd8_refines_spec_witness :
    (Rnd8State.mk 200 77 255 255).IsBytes ∧
    (rnd8 ⟨200, 77, 255, 255⟩ = spec_rnd8 ⟨200, 77, 255, 255⟩ ∧
     ∀ N, rnd8_stream N Rnd8State.zero = spec_stream N Rnd8State.zero) :=
  ⟨by decide,
   (rnd8_refines_spec ⟨200, 77, 255, 255⟩ (by decide)).1,
   (rnd8_refines_spec ⟨200, 77, 255, 255⟩ (by decide)).2.2.2.2.2.2⟩

/-- C6, as stated: the first call of `rnd8` from the all-zero state does not return 1. -/
theorem rnd8_first_ne_one : ¬ (rnd8 Rnd8State.zero).1 = 1 := by
  decide

/-- C6, amended: the first call of `rnd8` from the all-zero state returns 129, and leaves
`x = 1`, `a = 1`, `b = 1`, `c = 129` as in the specification's own trace. -/
theorem rnd8_first_eq_129 :
    rnd8 Rnd8State.zero = (129, ⟨1, 1, 129, 1⟩) := by
  decide

end ScanlinesPixelart

namespace SoundKeyboard

/-! ## The tone generator -/

theorem foldl_toneStep (n : Int) (m : Nat) :
    (List.range m).foldl toneStep ([], n) =
      ((List.range m).map (fun i : Nat => (n + (i : Int)) * 440), n + (m : Int)) := by
  induction m with
  | zero => simp
  | succ m ih =>
    rw [List.range_succ, List.foldl_append, ih, List.map_append]
    simp only [List.foldl_cons, List.foldl_nil, toneStep, List.map_cons, List.map_nil,
      Nat.cast_succ]
    rw [Int.add_assoc]

theorem toneLoop_eq (n : Int) :
    toneLoop n = ((List.range 1024).map (fun i : Nat => (n + (i : Int)) * 440), n + 1024) := by
  unfold toneLoop samplesLen
  rw [ScanlinesPixelart.cFor_count, foldl_toneStep]
  rfl

theorem minimum_audio_eq : minimum_audio = 96000 := by
  decide

theorem iterate_eq (q n : Int) (h0 : 0 ≤ n) :
    SDL_AppIterate q n =
      (if q < 96000 then
        ((List.range 1024).map (fun i : Nat => (n + (i : Int)) * 440), (n + 1024) % 48000)
      else ([], n)) := by
  unfold SDL_AppIterate
  rw [minimum_audio_eq, toneLoop_eq]
  by_cases h : q < 96000
  · rw [if_pos h, if_pos h,
      Int.tmod_eq_emod (show (0 : Int) ≤ n + 1024 by omega) (by norm_num)]
  · rw [if_neg h, if_neg h]

theorem iterate_range (q n : Int) (h0 : 0 ≤ n) (h1 : n < 48000) :
    0 ≤ (SDL_AppIterate q n).2 ∧ (SDL_AppIterate q n).2 < 48000 := by
  rw [iterate_eq q n h0]
  by_cases h : q < 96000
  · rw [if_pos h]
    dsimp only
    omega
  · rw [if_neg h]
    exact ⟨h0, h1⟩

theorem runIterate_range (qs : List Int) :
    ∀ n : Int, 0 ≤ n → n < 48000 →
      0 ≤ qs.foldl (fun n q => (SDL_AppIterate q n).2) n ∧
        qs.foldl (fun n q => (SDL_AppIterate q n).2) n < 48000 := by
  induction qs with
  | nil => intro n h0 h1; exact ⟨h0, h1⟩
  | cons q qs ih =>
    intro n h0 h1
    rw [List.foldl_cons]
    exact ih _ (iterate_range q n h0 h1).1 (iterate_range q n h0 h1).2

/-- C9: audio is generated exactly when the queued byte count is below 96000; a generating
call writes exactly 1024 samples and changes `current_sine_sample` from `n` to
`(n + 1024) mod 48000`, a non-generating call writes none and leaves it unchanged; from the
initial 0 the counter stays in `0 ≤ current_sine_sample < 48000` after every call, and every
integer product `current_sine_sample * 440` formed in a batch is at most
`(47999 + 1023) * 440`, below `2 ^ 31`. -/
theorem tone_counter_wraps (q n : Int) (qs : List Int) (h0 : 0 ≤ n) (h1 : n < 48000) :
    minimum_audio = 96000 ∧
    SDL_AppIterate q n =
      (if q < 96000 then
        ((List.range 1024).map (fun i : Nat => (n + (i : Int)) * 440), (n + 1024) % 48000)
      else ([], n)) ∧
    (SDL_AppIterate q n).1.length = (if q < 96000 then 1024 else 0) ∧
    (0 ≤ runIterate qs ∧ runIterate qs < 48000) ∧
    (∀ v ∈ (SDL_AppIterate q n).1, 0 ≤ v ∧ v ≤ (47999 + 1023) * 440 ∧ v < 2 ^ 31) := by
  have hs := iterate_eq q n h0
  refine ⟨minimum_audio_eq, hs, ?_, runIterate_range qs 0 (le_refl _) (by norm_num), ?_⟩
  · rw [hs]
    by_cases h : q < 96000
    · rw [if_pos h, if_pos h, List.length_map, List.length_range]
    · rw [if_neg h, if_neg h]
      rfl
  · rw [hs]
    intro v hv
    by_cases h : q < 96000
    · rw [if_pos h] at hv
      dsimp only at hv
      obtain ⟨i, hi, rfl⟩ := List.mem_map.mp hv
      rw [List.mem_range] at hi
      norm_num
      omega
    · rw [if_neg h] at hv
      exact absurd hv (List.not_mem_nil v)

theorem tone_counter_wraps_witness :
    ((0 : Int) ≤ 47999 ∧ (47999 : Int) < 48000) ∧
    (SDL_AppIterate 95999 47999).1.length = (if (95999 : Int) < 96000 then 1024 else 0) ∧
    (0 ≤ runIterate [0, 96000, -1] ∧ runIterate [0, 96000, -1] < 48000) :=
  ⟨by decide,
    (tone_counter_wraps 95999 47999 [0, 96000, -1] (by decide) (by decide)).2.2.1,
    (tone_counter_wraps 95999 47999 [0, 96000, -1] (by decide) (by decide)).2.2.2.1⟩

end SoundKeyboard
